import Mathlib

/-!
Verification model of the recursive archive extractor (`extractor.go`).

The byte-level codecs (gzip, bzip2, zip, tar, rar, xz, lz4) and the mime
sniffer are external collaborators in the source.  We model a stream's
content as an inductive tree recording, for each stream, what the sniffer
reports and what the corresponding codec would yield: container nodes carry
their decoded children (archive entries or the single decompressed inner
stream) together with the construction / iteration outcomes, and a `raw`
leaf carries the bytes of a stream whose format is unrecognized.

`extract` below is a transcription of `(*extractor).extract`: it returns the
ordered list of filestreams sent on the channel, the list of filestreams
passed to recursive calls, construction / resolution counts, and whether the
walk crashed (the tar branch dereferences a nil header on a non-EOF
iteration error).
-/

set_option maxHeartbeats 1000000

namespace Extractor

/-- A Go error value: `io.EOF` or any other error, identified by message. -/
inductive GoErr where
  | eof
  | other (msg : String)
deriving DecidableEq, Repr

mutual

/-- Abstract content of a byte stream, as seen through the mime sniffer and
the codec adapters.  Each constructor fixes what `mime.Detect` reports on the
512-byte peek and what the matching decoder yields. -/
inductive Content where
  /-- gzip signature; `gzip.NewReader` succeeds, header name `gname`
  (empty string when the header carries no name), decompressing to `inner`. -/
  | gzipOk (gname : String) (inner : Content)
  /-- gzip signature but `gzip.NewReader` fails: the stream's bytes are
  `bytes`, of which the failed constructor consumed the first `consumed`
  (the 10-byte fixed header and any extra fields it managed to read) from
  the buffered reader before returning the error. -/
  | gzipErr (msg : String) (bytes : List Nat) (consumed : Nat)
  /-- bzip2 stream decompressing to `inner` (`bzip2.NewReader` cannot fail). -/
  | bzip2 (inner : Content)
  /-- xz stream; `xz.NewReader` succeeds, decompressing to `inner`. -/
  | xzOk (inner : Content)
  /-- xz signature but `xz.NewReader` fails: the failed constructor
  consumed the first `consumed` of the stream's `bytes` (the 12-byte stream
  header it tried to read) from the buffered reader. -/
  | xzErr (msg : String) (bytes : List Nat) (consumed : Nat)
  /-- lz4 stream decompressing to `inner` (`lz4.NewReader` cannot fail). -/
  | lz4 (inner : Content)
  /-- zip signature; the view records stat / open outcomes and the entries. -/
  | zipC (v : ZipView)
  /-- tar stream: the entries yielded by `tar.Reader.Next`, then the terminal
  iteration outcome (`io.EOF` or another error). -/
  | tarC (entries : List TEntry) (term : GoErr)
  /-- rar stream; `rardecode.NewReader` succeeds: entries then terminal. -/
  | rarOk (entries : List REntry) (term : GoErr)
  /-- rar signature but `rardecode.NewReader` fails: the failed constructor
  consumed the first `consumed` of the stream's `bytes` (the signature and
  archive-header bytes it tried to read) from the buffered reader. -/
  | rarErr (msg : String) (bytes : List Nat) (consumed : Nat)
  /-- A plain byte stream: an input whose format the sniffer does not
  recognize, or the opaque view of a reader's remaining bytes (exhausted
  terminal positions, streams a failed constructor already read from). -/
  | raw (bytes : List Nat)

/-- Outcome of opening a zip container over an `os.File`. -/
inductive ZipView where
  | statErr (msg : String)
  | newErr (msg : String)
  | ok (entries : List ZEntry)

/-- One zip central-directory entry: either `file.Open` fails, or it yields
a named stream. -/
inductive ZEntry where
  | openErr (msg : String)
  | entry (ename : String) (c : Content)

/-- One tar entry: a non-regular entry (`Typeflag != tar.TypeReg`) or a
regular file with its content. -/
inductive TEntry where
  | dir (ename : String)
  | reg (ename : String) (c : Content)

/-- One rar entry: a directory (`hdr.IsDir`) or a regular file. -/
inductive REntry where
  | dir (ename : String)
  | reg (ename : String) (c : Content)

end

/-- The Go dynamic type of a filestream's reader, as far as the type
assertions in `extract` can observe it: an `*os.File`, a `*bufio.Reader`,
or anything else (decoder readers, archive entry readers). -/
inductive RKind where
  | osFile
  | bufioR
  | other
deriving DecidableEq, Repr

/-- A reader: its dynamic type together with the content it delivers. -/
structure Rdr where
  kind : RKind
  content : Content

/-- `filestream`: reader, hierarchical name, optional error. -/
structure Fstream where
  r : Rdr
  filename : String
  err : Option GoErr

/-- `bufio.NewReader` wrapping (lines 61-64): reuse the reader when it is
already a `*bufio.Reader`, else wrap it.  Either way the result is a
`*bufio.Reader` over the same bytes — `Peek` never consumes. -/
def bufWrap (r : Rdr) : Rdr := ⟨.bufioR, r.content⟩

/-- `NestError` (line 27). -/
def nestError : GoErr :=
  .other "reader is nested archive that cannot be extracted."

/-- Result of running `extract` on one filestream: the channel sends in
order, every filestream passed to a recursive `extract` call (transitively,
in call order), the number of filestreams constructed during the call (not
counting the argument itself), the number of resolutions performed (the
argument's own disposition — decoded into or emitted — plus those of all
descendants), and whether the producer goroutine crashed. -/
structure Run where
  sends : List Fstream
  calls : List Fstream
  cons : Nat
  res : Nat
  crashed : Bool

/-- Sequencing: a crash aborts everything after it. -/
def Run.seq (a b : Run) : Run :=
  if a.crashed then a
  else ⟨a.sends ++ b.sends, a.calls ++ b.calls, a.cons + b.cons,
        a.res + b.res, b.crashed⟩

/-- Emit the frame's own filestream on the channel (error and leaf
branches): one resolution, no construction. -/
def emitOld (f : Fstream) : Run := ⟨[f], [], 0, 1, false⟩

/-- Construct a fresh filestream and emit it directly (tar/rar terminal,
zip per-entry open failure). -/
def emitNew (f : Fstream) : Run := ⟨[f], [], 1, 1, false⟩

/-- The frame resolves its own filestream by decoding it into children. -/
def res1 : Run := ⟨[], [], 0, 1, false⟩

/-- The producer goroutine panics (nil header dereference). -/
def crashRun : Run := ⟨[], [], 0, 0, true⟩

/-- An empty entry loop. -/
def emptyRun : Run := ⟨[], [], 0, 0, false⟩

/-- A compression-only branch: the frame's filestream is resolved by
decoding (the extra resolution), one child filestream is constructed and
recursed into. -/
def intoChild (child : Fstream) (r : Run) : Run :=
  ⟨r.sends, child :: r.calls, r.cons + 1, r.res + 1, r.crashed⟩

/-- One entry of a multi-entry container: a child filestream is constructed
and recursed into (the container's own resolution is counted once by the
enclosing frame, not per entry). -/
def intoEntry (child : Fstream) (r : Run) : Run :=
  ⟨r.sends, child :: r.calls, r.cons + 1, r.res, r.crashed⟩

/-- `filepath.Ext`, scanning the reversed character list: the suffix
beginning at the final dot, empty if a path separator comes first. -/
def filepathExtGo : List Char → List Char → String
  | [], _ => ""
  | c :: rest, acc =>
    if c = '/' then ""
    else if c = '.' then String.mk ('.' :: acc)
    else filepathExtGo rest (c :: acc)

/-- `filepath.Ext path`. -/
def filepathExt (path : String) : String := filepathExtGo path.data.reverse []

/-- Try to match `sep` as a leading pattern, returning the remainder. -/
def sepMatch : List Char → List Char → Option (List Char)
  | [], rest => some rest
  | _ :: _, [] => none
  | p :: ps, c :: cs => if c = p then sepMatch ps cs else none

/-- Go `strings.Split` on character lists: split on each non-overlapping
occurrence of `sep`, scanning left to right.  The extra `Nat` is fuel
bounding the number of characters consumed, so the recursion is structural;
callers pass the list length (the separator is the colon everywhere in this
program, so the empty-separator case never arises). -/
def splitGoFuel (sep : List Char) : Nat → List Char → List (List Char)
  | _, [] => [[]]
  | 0, l => [l]
  | fuel + 1, c :: cs =>
    match sepMatch sep (c :: cs) with
    | some rest => [] :: splitGoFuel sep fuel rest
    | none =>
      match splitGoFuel sep fuel cs with
      | [] => [[c]]
      | h :: t => (c :: h) :: t

/-- Go `strings.Split sep s`. -/
def splitGo (sep s : String) : List String :=
  (splitGoFuel sep.data s.data.length s.data).map String.mk

/-- Child-name computation of the compression-only branches (bzip2 lines
85-97, xz lines 188-195, lz4 lines 203-210): split the parent name on the
separator, take the last segment, and when `filepath.Ext` of that segment
equals the format's canonical extension, append separator plus the segment
with the extension sliced off (`base[:len(base)-len(ext)]`); otherwise the
name is unchanged. -/
def stripExtName (sep fname ext : String) : String :=
  let parts := splitGo sep fname
  let base := parts.getLast!
  if filepathExt base = ext then
    fname ++ sep ++ String.mk (base.data.take (base.data.length - ext.data.length))
  else fname

/-- tar terminal outcome (lines 139-143): only `io.EOF` is tested; on EOF a
fresh filestream over the exhausted reader is emitted carrying the error;
any other error reaches `hdr.Typeflag` with `hdr == nil` and panics. -/
def tarTerm : GoErr → Run
  | .eof => emitNew ⟨⟨.bufioR, .raw []⟩, "", some .eof⟩
  | .other _ => crashRun

mutual

/-- `extract` (lines 58-222), with the filestream passed in decomposed into
its reader kind, name, error and content. -/
def extractC (sep : String) (kind : RKind) (fname : String)
    (ferr : Option GoErr) : Content → Run
  | .gzipOk g inner =>
    intoChild ⟨⟨.other, inner⟩, fname ++ sep ++ g, none⟩
      (extractC sep .other (fname ++ sep ++ g) none inner)
  | .gzipErr m bytes consumed =>
    emitOld ⟨⟨.bufioR, .raw (bytes.drop consumed)⟩, fname, some (.other m)⟩
  | .bzip2 inner =>
    intoChild ⟨⟨.other, inner⟩, stripExtName sep fname ".bz2", none⟩
      (extractC sep .other (stripExtName sep fname ".bz2") none inner)
  | .xzOk inner =>
    intoChild ⟨⟨.other, inner⟩, stripExtName sep fname ".xz", none⟩
      (extractC sep .other (stripExtName sep fname ".xz") none inner)
  | .xzErr m bytes consumed =>
    emitOld ⟨⟨.bufioR, .raw (bytes.drop consumed)⟩, fname, some (.other m)⟩
  | .lz4 inner =>
    intoChild ⟨⟨.other, inner⟩, stripExtName sep fname ".lz4", none⟩
      (extractC sep .other (stripExtName sep fname ".lz4") none inner)
  | .zipC v =>
    if kind = .osFile then
      match v with
      | .statErr m =>
        emitOld ⟨⟨.bufioR, .zipC (.statErr m)⟩, fname, some (.other m)⟩
      | .newErr m =>
        emitOld ⟨⟨.bufioR, .zipC (.newErr m)⟩, fname, some (.other m)⟩
      | .ok entries => Run.seq res1 (extractZipL sep fname entries)
    else
      emitOld ⟨⟨.bufioR, .zipC v⟩, fname, some nestError⟩
  | .tarC entries term =>
    Run.seq res1 (Run.seq (extractTarL sep fname entries) (tarTerm term))
  | .rarOk entries term =>
    Run.seq res1 (Run.seq (extractRarL sep fname entries)
      (emitNew ⟨⟨.bufioR, .raw []⟩, "", some term⟩))
  | .rarErr m bytes consumed =>
    emitOld ⟨⟨.bufioR, .raw (bytes.drop consumed)⟩, fname, some (.other m)⟩
  | .raw bytes =>
    emitOld ⟨bufWrap ⟨kind, .raw bytes⟩, fname, ferr⟩

/-- The zip entry loop (lines 124-132): a failed `file.Open` emits an error
leaf with no name and continues; a successful one recurses. -/
def extractZipL (sep parent : String) : List ZEntry → Run
  | [] => emptyRun
  | .openErr m :: rest =>
    Run.seq (emitNew ⟨⟨.bufioR, .raw []⟩, "", some (.other m)⟩)
      (extractZipL sep parent rest)
  | .entry n c :: rest =>
    Run.seq
      (intoEntry ⟨⟨.other, c⟩, parent ++ sep ++ n, none⟩
        (extractC sep .other (parent ++ sep ++ n) none c))
      (extractZipL sep parent rest)

/-- The tar entry loop (lines 138-150): non-regular entries are skipped,
regular entries are recursed into. -/
def extractTarL (sep parent : String) : List TEntry → Run
  | [] => emptyRun
  | .dir _ :: rest => extractTarL sep parent rest
  | .reg n c :: rest =>
    Run.seq
      (intoEntry ⟨⟨.other, c⟩, parent ++ sep ++ n, none⟩
        (extractC sep .other (parent ++ sep ++ n) none c))
      (extractTarL sep parent rest)

/-- The rar entry loop (lines 162-175): directory entries are skipped,
regular entries are recursed into. -/
def extractRarL (sep parent : String) : List REntry → Run
  | [] => emptyRun
  | .dir _ :: rest => extractRarL sep parent rest
  | .reg n c :: rest =>
    Run.seq
      (intoEntry ⟨⟨.other, c⟩, parent ++ sep ++ n, none⟩
        (extractC sep .other (parent ++ sep ++ n) none c))
      (extractRarL sep parent rest)

end

/-- `extract` on a filestream. -/
def extract (sep : String) (f : Fstream) : Run :=
  extractC sep f.r.kind f.filename f.err f.r.content

/-- The `extractor` session object: input reader, name, separator. -/
structure ExtractorS where
  r : Rdr
  filename : String
  sep : String

/-- `New` (lines 38-46): separator is the colon. -/
def NewE (r : Rdr) (filename : String) : ExtractorS := ⟨r, filename, ":"⟩

/-- The complete producer walk of a session: the goroutine spawned on first
pull runs `extract` on the initial filestream (input reader, session name,
no error). -/
def runE (e : ExtractorS) : Run := extract e.sep ⟨e.r, e.filename, none⟩

/-- One `Next` call (lines 237-246), as a function of the channel's
remaining contents: receive; on close report exhaustion; silently skip
error-carrying filestreams; return the first error-free one. -/
def nextPull : List Fstream → Option (Fstream × List Fstream)
  | [] => none
  | fs :: rest => if fs.err.isNone then some (fs, rest) else nextPull rest

/-- One `NextWithError` call (lines 262-267): receive once and return the
filestream verbatim, error included. -/
def nextWithErrorPull : List Fstream → Option (Fstream × List Fstream)
  | [] => none
  | fs :: rest => some (fs, rest)

theorem nextPull_length :
    ∀ (l : List Fstream) (fs : Fstream) (rest : List Fstream),
      nextPull l = some (fs, rest) → rest.length < l.length := by
  intro l
  induction l with
  | nil => intro fs rest h; simp [nextPull] at h
  | cons a t ih =>
    intro fs rest h
    by_cases ha : a.err.isNone
    · simp [nextPull, ha] at h
      simp [h.2.symm, List.length_cons, Nat.lt_succ_self]
    · simp [nextPull, ha] at h
      exact Nat.lt_trans (ih fs rest h) (Nat.lt_succ_self _)

/-- Repeated `Next` calls until exhaustion: the full sequence of results a
consumer that only uses `Next` observes. -/
def nextDrain (l : List Fstream) : List Fstream :=
  match h : nextPull l with
  | none => []
  | some (fs, rest) => fs :: nextDrain rest
termination_by l.length
decreasing_by exact nextPull_length l fs rest h

mutual

/-- Modelled from the spec's ordering guarantee: the depth-first pre-order
flatten of the nesting structure — the leaves of each container in the
container's native entry order, each child subtree fully before the next
sibling.  Error events (decoder failures, unopenable entries, terminal
markers, the nested-zip condition) contribute no leaf. -/
def leavesSpec (sep : String) (kind : RKind) (fname : String) : Content → List String
  | .gzipOk g inner => leavesSpec sep .other (fname ++ sep ++ g) inner
  | .gzipErr _ _ _ => []
  | .bzip2 inner => leavesSpec sep .other (stripExtName sep fname ".bz2") inner
  | .xzOk inner => leavesSpec sep .other (stripExtName sep fname ".xz") inner
  | .xzErr _ _ _ => []
  | .lz4 inner => leavesSpec sep .other (stripExtName sep fname ".lz4") inner
  | .zipC (.ok entries) => if kind = .osFile then leavesZipL sep fname entries else []
  | .zipC (.statErr _) => []
  | .zipC (.newErr _) => []
  | .tarC entries _ => leavesTarL sep fname entries
  | .rarOk entries _ => leavesRarL sep fname entries
  | .rarErr _ _ _ => []
  | .raw _ => [fname]

/-- Pre-order leaves of a zip entry list, in native order. -/
def leavesZipL (sep parent : String) : List ZEntry → List String
  | [] => []
  | .openErr _ :: rest => leavesZipL sep parent rest
  | .entry n c :: rest =>
    leavesSpec sep .other (parent ++ sep ++ n) c ++ leavesZipL sep parent rest

/-- Pre-order leaves of a tar entry list, in native order. -/
def leavesTarL (sep parent : String) : List TEntry → List String
  | [] => []
  | .dir _ :: rest => leavesTarL sep parent rest
  | .reg n c :: rest =>
    leavesSpec sep .other (parent ++ sep ++ n) c ++ leavesTarL sep parent rest

/-- Pre-order leaves of a rar entry list, in native order. -/
def leavesRarL (sep parent : String) : List REntry → List String
  | [] => []
  | .dir _ :: rest => leavesRarL sep parent rest
  | .reg n c :: rest =>
    leavesSpec sep .other (parent ++ sep ++ n) c ++ leavesRarL sep parent rest

end

/-! ### Helper lemmas -/

theorem nextPull_none_filter :
    ∀ l : List Fstream, nextPull l = none →
      l.filter (fun fs => fs.err.isNone) = [] := by
  intro l
  induction l with
  | nil => intro _; rfl
  | cons a t ih =>
    intro h
    by_cases ha : a.err.isNone
    · simp [nextPull, ha] at h
    · simp [nextPull, ha] at h
      simp [List.filter, ha, ih h]

theorem nextPull_some_filter :
    ∀ (l : List Fstream) (fs : Fstream) (rest : List Fstream),
      nextPull l = some (fs, rest) →
      l.filter (fun g => g.err.isNone) = fs :: rest.filter (fun g => g.err.isNone) := by
  intro l
  induction l with
  | nil => intro fs rest h; simp [nextPull] at h
  | cons a t ih =>
    intro fs rest h
    by_cases ha : a.err.isNone
    · simp [nextPull, ha] at h
      obtain ⟨h1, h2⟩ := h
      subst h1; subst h2
      simp [List.filter, ha]
    · simp [nextPull, ha] at h
      simp [List.filter, ha, ih fs rest h]

theorem nextDrain_eq_filter_aux :
    ∀ (n : Nat) (l : List Fstream), l.length ≤ n →
      nextDrain l = l.filter (fun fs => fs.err.isNone) := by
  intro n
  induction n with
  | zero =>
    intro l hl
    have hnil : l = [] := List.eq_nil_of_length_eq_zero (Nat.le_zero.mp hl)
    subst hnil
    rw [nextDrain]
    rfl
  | succ n ih =>
    intro l hl
    rw [nextDrain]
    split
    · rename_i heq
      exact (nextPull_none_filter l heq).symm
    · rename_i fs rest heq
      have hlen := nextPull_length l fs rest heq
      rw [nextPull_some_filter l fs rest heq,
        ih rest (Nat.le_of_lt_succ (Nat.lt_of_lt_of_le hlen hl))]

/-- Draining the channel through `Next` yields exactly the error-free
filestreams, in emission order. -/
theorem nextDrain_eq_filter (l : List Fstream) :
    nextDrain l = l.filter (fun fs => fs.err.isNone) :=
  nextDrain_eq_filter_aux l.length l (Nat.le_refl _)

theorem filepathExtGo_dot (ts : List Char) :
    ∀ (rev acc : List Char), filepathExtGo rev acc = String.mk ('.' :: ts) →
      ∃ pre rest, rev = pre ++ '.' :: rest ∧ pre.reverse ++ acc = ts := by
  intro rev
  induction rev with
  | nil =>
    intro acc h
    have hd := congrArg String.data h
    simp [filepathExtGo] at hd
  | cons c rest ih =>
    intro acc h
    by_cases hsl : c = '/'
    · rw [filepathExtGo, if_pos hsl] at h
      have hd := congrArg String.data h
      simp at hd
    · by_cases hdot : c = '.'
      · rw [filepathExtGo, if_neg hsl, if_pos hdot] at h
        have hd := congrArg String.data h
        simp at hd
        exact ⟨[], rest, by simp [hdot], hd⟩
      · rw [filepathExtGo, if_neg hsl, if_neg hdot] at h
        obtain ⟨pre, rest2, hrev, hacc⟩ := ih (c :: acc) h
        refine ⟨c :: pre, rest2, by simp [hrev], ?_⟩
        simp [← hacc]

/-- When `filepath.Ext` reports `.bz2`, the name really ends in `.bz2`. -/
theorem filepathExt_suffix_bz2 (base : String) (h : filepathExt base = ".bz2") :
    (".bz2").data <:+ base.data := by
  obtain ⟨pre, rest, hrev, hpre⟩ := filepathExtGo_dot ['b', 'z', '2'] base.data.reverse [] h
  simp at hpre
  refine ⟨rest.reverse, ?_⟩
  have hbase : base.data = (base.data.reverse).reverse := by simp
  rw [hbase, hrev]
  simp [hpre]

/-- When the name ends in `.bz2`, `filepath.Ext` reports `.bz2`. -/
theorem filepathExt_of_suffix_bz2 (base : String) (u : List Char)
    (h : base.data = u ++ (".bz2").data) : filepathExt base = ".bz2" := by
  unfold filepathExt
  rw [h]
  show filepathExtGo ((u ++ ['.', 'b', 'z', '2']).reverse) [] = ".bz2"
  rw [List.reverse_append]
  show filepathExtGo ('2' :: 'z' :: 'b' :: '.' :: u.reverse) [] = ".bz2"
  rfl

theorem stripExtName_strip_bz2 (fname : String) (u : List Char)
    (h : ((splitGo ":" fname).getLast!).data = u ++ (".bz2").data) :
    stripExtName ":" fname ".bz2" = fname ++ ":" ++ String.mk u := by
  unfold stripExtName
  rw [if_pos (filepathExt_of_suffix_bz2 _ u h)]
  congr 1
  rw [h]
  simp [List.take_left]

theorem stripExtName_id_bz2 (fname : String)
    (h : ¬ (".bz2").data <:+ ((splitGo ":" fname).getLast!).data) :
    stripExtName ":" fname ".bz2" = fname := by
  unfold stripExtName
  rw [if_neg]
  intro hext
  exact h (filepathExt_suffix_bz2 _ hext)

/-- When `filepath.Ext` reports `.xz`, the name really ends in `.xz`. -/
theorem filepathExt_suffix_xz (base : String) (h : filepathExt base = ".xz") :
    (".xz").data <:+ base.data := by
  obtain ⟨pre, rest, hrev, hpre⟩ := filepathExtGo_dot ['x', 'z'] base.data.reverse [] h
  simp at hpre
  refine ⟨rest.reverse, ?_⟩
  have hbase : base.data = (base.data.reverse).reverse := by simp
  rw [hbase, hrev]
  simp [hpre]

/-- When the name ends in `.xz`, `filepath.Ext` reports `.xz`. -/
theorem filepathExt_of_suffix_xz (base : String) (u : List Char)
    (h : base.data = u ++ (".xz").data) : filepathExt base = ".xz" := by
  unfold filepathExt
  rw [h]
  show filepathExtGo ((u ++ ['.', 'x', 'z']).reverse) [] = ".xz"
  rw [List.reverse_append]
  show filepathExtGo ('z' :: 'x' :: '.' :: u.reverse) [] = ".xz"
  rfl

theorem stripExtName_strip_xz (fname : String) (u : List Char)
    (h : ((splitGo ":" fname).getLast!).data = u ++ (".xz").data) :
    stripExtName ":" fname ".xz" = fname ++ ":" ++ String.mk u := by
  unfold stripExtName
  rw [if_pos (filepathExt_of_suffix_xz _ u h)]
  congr 1
  rw [h]
  simp [List.take_left]

theorem stripExtName_id_xz (fname : String)
    (h : ¬ (".xz").data <:+ ((splitGo ":" fname).getLast!).data) :
    stripExtName ":" fname ".xz" = fname := by
  unfold stripExtName
  rw [if_neg]
  intro hext
  exact h (filepathExt_suffix_xz _ hext)

/-- When `filepath.Ext` reports `.lz4`, the name really ends in `.lz4`. -/
theorem filepathExt_suffix_lz4 (base : String) (h : filepathExt base = ".lz4") :
    (".lz4").data <:+ base.data := by
  obtain ⟨pre, rest, hrev, hpre⟩ := filepathExtGo_dot ['l', 'z', '4'] base.data.reverse [] h
  simp at hpre
  refine ⟨rest.reverse, ?_⟩
  have hbase : base.data = (base.data.reverse).reverse := by simp
  rw [hbase, hrev]
  simp [hpre]

/-- When the name ends in `.lz4`, `filepath.Ext` reports `.lz4`. -/
theorem filepathExt_of_suffix_lz4 (base : String) (u : List Char)
    (h : base.data = u ++ (".lz4").data) : filepathExt base = ".lz4" := by
  unfold filepathExt
  rw [h]
  show filepathExtGo ((u ++ ['.', 'l', 'z', '4']).reverse) [] = ".lz4"
  rw [List.reverse_append]
  show filepathExtGo ('4' :: 'z' :: 'l' :: '.' :: u.reverse) [] = ".lz4"
  rfl

theorem stripExtName_strip_lz4 (fname : String) (u : List Char)
    (h : ((splitGo ":" fname).getLast!).data = u ++ (".lz4").data) :
    stripExtName ":" fname ".lz4" = fname ++ ":" ++ String.mk u := by
  unfold stripExtName
  rw [if_pos (filepathExt_of_suffix_lz4 _ u h)]
  congr 1
  rw [h]
  simp [List.take_left]

theorem stripExtName_id_lz4 (fname : String)
    (h : ¬ (".lz4").data <:+ ((splitGo ":" fname).getLast!).data) :
    stripExtName ":" fname ".lz4" = fname := by
  unfold stripExtName
  rw [if_neg]
  intro hext
  exact h (filepathExt_suffix_lz4 _ hext)


theorem seq_crashed (a b : Run) : (Run.seq a b).crashed = (a.crashed || b.crashed) := by
  by_cases h : a.crashed = true
  · simp [Run.seq, h]
  · simp at h
    simp [Run.seq, h]

theorem seq_sends (a b : Run) (h : a.crashed = false) :
    (Run.seq a b).sends = a.sends ++ b.sends := by
  simp [Run.seq, h]

theorem seq_calls (a b : Run) (h : a.crashed = false) :
    (Run.seq a b).calls = a.calls ++ b.calls := by
  simp [Run.seq, h]

/-- Every branch of `extract` performs one more resolution than it performs
constructions: counting the argument filestream itself (constructed by the
caller), constructions and resolutions balance exactly. -/
theorem extract_balance_all (sep : String) :
    ∀ (kind : RKind) (fname : String) (ferr : Option GoErr) (c : Content),
      (extractC sep kind fname ferr c).res = (extractC sep kind fname ferr c).cons + 1 := by
  refine extractC.induct sep
    (fun kind fname ferr c =>
      (extractC sep kind fname ferr c).res = (extractC sep kind fname ferr c).cons + 1)
    (fun parent l => (extractRarL sep parent l).res = (extractRarL sep parent l).cons)
    (fun parent l => (extractTarL sep parent l).res = (extractTarL sep parent l).cons)
    (fun parent l => (extractZipL sep parent l).res = (extractZipL sep parent l).cons)
    ?_ ?_ ?_ ?_ ?_ ?_ ?_ ?_ ?_ ?_ ?_ ?_ ?_ ?_ ?_ ?_ ?_ ?_ ?_ ?_ ?_ ?_ ?_
  · intro kind fname ferr g inner ih
    simp only [extractC, intoChild]
    omega
  · intro kind fname ferr m bytes consumed
    simp [extractC, emitOld]
  · intro kind fname ferr inner ih
    simp only [extractC, intoChild]
    omega
  · intro kind fname ferr inner ih
    simp only [extractC, intoChild]
    omega
  · intro kind fname ferr m bytes consumed
    simp [extractC, emitOld]
  · intro kind fname ferr inner ih
    simp only [extractC, intoChild]
    omega
  · intro fname ferr m
    simp [extractC, emitOld]
  · intro fname ferr m
    simp [extractC, emitOld]
  · intro fname ferr entries ih
    simp only [extractC]
    simp [Run.seq, res1]
    omega
  · intro kind fname ferr v hk
    cases v <;> simp [extractC, hk, emitOld]
  · intro kind fname ferr entries term ih
    simp only [extractC]
    by_cases hc : (extractTarL sep fname entries).crashed
    · simp [Run.seq, res1, hc]
      omega
    · simp at hc
      cases term with
      | eof =>
        simp [Run.seq, res1, hc, tarTerm, emitNew]
        omega
      | other m =>
        simp [Run.seq, res1, hc, tarTerm, crashRun]
        omega
  · intro kind fname ferr entries term ih
    simp only [extractC]
    by_cases hc : (extractRarL sep fname entries).crashed
    · simp [Run.seq, res1, hc]
      omega
    · simp at hc
      simp [Run.seq, res1, hc, emitNew]
      omega
  · intro kind fname ferr m bytes consumed
    simp [extractC, emitOld]
  · intro kind fname ferr bytes
    simp [extractC, emitOld, bufWrap]
  · intro parent
    simp [extractTarL, emptyRun]
  · intro parent ename rest ih
    simpa [extractTarL] using ih
  · intro parent n c rest ih1 ih2
    simp only [extractTarL]
    by_cases hc : (extractC sep .other (parent ++ sep ++ n) none c).crashed
    · simp [Run.seq, intoEntry, hc]
      omega
    · simp at hc
      simp [Run.seq, intoEntry, hc]
      omega
  · intro parent
    simp [extractRarL, emptyRun]
  · intro parent ename rest ih
    simpa [extractRarL] using ih
  · intro parent n c rest ih1 ih2
    simp only [extractRarL]
    by_cases hc : (extractC sep .other (parent ++ sep ++ n) none c).crashed
    · simp [Run.seq, intoEntry, hc]
      omega
    · simp at hc
      simp [Run.seq, intoEntry, hc]
      omega
  · intro parent
    simp [extractZipL, emptyRun]
  · intro parent m rest ih
    simp only [extractZipL]
    simp [Run.seq, emitNew]
    omega
  · intro parent n c rest ih1 ih2
    simp only [extractZipL]
    by_cases hc : (extractC sep .other (parent ++ sep ++ n) none c).crashed
    · simp [Run.seq, intoEntry, hc]
      omega
    · simp at hc
      simp [Run.seq, intoEntry, hc]
      omega


/-- Every filestream that `extract` ever recurses into carries a decoder or
archive-entry reader: its dynamic type is never `*os.File` (and never
`*bufio.Reader`). -/
theorem extract_calls_other (sep : String) :
    ∀ (kind : RKind) (fname : String) (ferr : Option GoErr) (c : Content),
      ∀ g ∈ (extractC sep kind fname ferr c).calls, g.r.kind = RKind.other := by
  refine extractC.induct sep
    (fun kind fname ferr c =>
      ∀ g ∈ (extractC sep kind fname ferr c).calls, g.r.kind = RKind.other)
    (fun parent l => ∀ g ∈ (extractRarL sep parent l).calls, g.r.kind = RKind.other)
    (fun parent l => ∀ g ∈ (extractTarL sep parent l).calls, g.r.kind = RKind.other)
    (fun parent l => ∀ g ∈ (extractZipL sep parent l).calls, g.r.kind = RKind.other)
    ?_ ?_ ?_ ?_ ?_ ?_ ?_ ?_ ?_ ?_ ?_ ?_ ?_ ?_ ?_ ?_ ?_ ?_ ?_ ?_ ?_ ?_ ?_
  · intro kind fname ferr gn inner ih
    simp only [extractC, intoChild]
    intro x hx
    rcases List.mem_cons.mp hx with h | h
    · subst h; rfl
    · exact ih x h
  · intro kind fname ferr m bytes consumed
    simp [extractC, emitOld]
  · intro kind fname ferr inner ih
    simp only [extractC, intoChild]
    intro x hx
    rcases List.mem_cons.mp hx with h | h
    · subst h; rfl
    · exact ih x h
  · intro kind fname ferr inner ih
    simp only [extractC, intoChild]
    intro x hx
    rcases List.mem_cons.mp hx with h | h
    · subst h; rfl
    · exact ih x h
  · intro kind fname ferr m bytes consumed
    simp [extractC, emitOld]
  · intro kind fname ferr inner ih
    simp only [extractC, intoChild]
    intro x hx
    rcases List.mem_cons.mp hx with h | h
    · subst h; rfl
    · exact ih x h
  · intro fname ferr m
    simp [extractC, emitOld]
  · intro fname ferr m
    simp [extractC, emitOld]
  · intro fname ferr entries ih
    simp only [extractC]
    simpa [Run.seq, res1] using ih
  · intro kind fname ferr v hk
    cases v <;> simp [extractC, hk, emitOld]
  · intro kind fname ferr entries term ih
    simp only [extractC]
    by_cases hc : (extractTarL sep fname entries).crashed
    · simpa [Run.seq, res1, hc] using ih
    · simp at hc
      cases term with
      | eof => simpa [Run.seq, res1, hc, tarTerm, emitNew] using ih
      | other m => simpa [Run.seq, res1, hc, tarTerm, crashRun] using ih
  · intro kind fname ferr entries term ih
    simp only [extractC]
    by_cases hc : (extractRarL sep fname entries).crashed
    · simpa [Run.seq, res1, hc] using ih
    · simp at hc
      simpa [Run.seq, res1, hc, emitNew] using ih
  · intro kind fname ferr m bytes consumed
    simp [extractC, emitOld]
  · intro kind fname ferr bytes
    simp [extractC, emitOld, bufWrap]
  · intro parent
    simp [extractTarL, emptyRun]
  · intro parent ename rest ih
    simpa [extractTarL] using ih
  · intro parent n c rest ih1 ih2
    simp only [extractTarL]
    by_cases hc : (extractC sep .other (parent ++ sep ++ n) none c).crashed
    · simpa [Run.seq, intoEntry, hc] using ih1
    · simp at hc
      simp only [Run.seq, intoEntry, hc]
      simp only [Bool.false_eq_true, if_false]
      intro x hx
      rcases List.mem_cons.mp hx with h | h
      · subst h; rfl
      · rcases List.mem_append.mp h with h2 | h2
        · exact ih1 x h2
        · exact ih2 x h2
  · intro parent
    simp [extractRarL, emptyRun]
  · intro parent ename rest ih
    simpa [extractRarL] using ih
  · intro parent n c rest ih1 ih2
    simp only [extractRarL]
    by_cases hc : (extractC sep .other (parent ++ sep ++ n) none c).crashed
    · simpa [Run.seq, intoEntry, hc] using ih1
    · simp at hc
      simp only [Run.seq, intoEntry, hc]
      simp only [Bool.false_eq_true, if_false]
      intro x hx
      rcases List.mem_cons.mp hx with h | h
      · subst h; rfl
      · rcases List.mem_append.mp h with h2 | h2
        · exact ih1 x h2
        · exact ih2 x h2
  · intro parent
    simp [extractZipL, emptyRun]
  · intro parent m rest ih
    simp only [extractZipL]
    simpa [Run.seq, emitNew] using ih
  · intro parent n c rest ih1 ih2
    simp only [extractZipL]
    by_cases hc : (extractC sep .other (parent ++ sep ++ n) none c).crashed
    · simpa [Run.seq, intoEntry, hc] using ih1
    · simp at hc
      simp only [Run.seq, intoEntry, hc]
      simp only [Bool.false_eq_true, if_false]
      intro x hx
      rcases List.mem_cons.mp hx with h | h
      · subst h; rfl
      · rcases List.mem_append.mp h with h2 | h2
        · exact ih1 x h2
        · exact ih2 x h2



/-- On a crash-free walk of an error-free filestream, the names that survive
the error filter are exactly the depth-first pre-order leaves. -/
theorem extract_preorder_all (sep : String) :
    ∀ (kind : RKind) (fname : String) (ferr : Option GoErr) (c : Content),
      ferr = none → (extractC sep kind fname ferr c).crashed = false →
      (((extractC sep kind fname ferr c).sends.filter
          (fun g => g.err.isNone)).map (fun g => g.filename))
        = leavesSpec sep kind fname c := by
  refine extractC.induct sep
    (fun kind fname ferr c =>
      ferr = none → (extractC sep kind fname ferr c).crashed = false →
      (((extractC sep kind fname ferr c).sends.filter
          (fun g => g.err.isNone)).map (fun g => g.filename))
        = leavesSpec sep kind fname c)
    (fun parent l =>
      (extractRarL sep parent l).crashed = false →
      (((extractRarL sep parent l).sends.filter
          (fun g => g.err.isNone)).map (fun g => g.filename))
        = leavesRarL sep parent l)
    (fun parent l =>
      (extractTarL sep parent l).crashed = false →
      (((extractTarL sep parent l).sends.filter
          (fun g => g.err.isNone)).map (fun g => g.filename))
        = leavesTarL sep parent l)
    (fun parent l =>
      (extractZipL sep parent l).crashed = false →
      (((extractZipL sep parent l).sends.filter
          (fun g => g.err.isNone)).map (fun g => g.filename))
        = leavesZipL sep parent l)
    ?_ ?_ ?_ ?_ ?_ ?_ ?_ ?_ ?_ ?_ ?_ ?_ ?_ ?_ ?_ ?_ ?_ ?_ ?_ ?_ ?_ ?_ ?_
  · intro kind fname ferr gn inner ih _ hcr
    simp only [extractC, intoChild] at hcr ⊢
    simp only [leavesSpec]
    exact ih rfl hcr
  · intro kind fname ferr m bytes consumed _ _
    simp [extractC, emitOld, leavesSpec]
  · intro kind fname ferr inner ih _ hcr
    simp only [extractC, intoChild] at hcr ⊢
    simp only [leavesSpec]
    exact ih rfl hcr
  · intro kind fname ferr inner ih _ hcr
    simp only [extractC, intoChild] at hcr ⊢
    simp only [leavesSpec]
    exact ih rfl hcr
  · intro kind fname ferr m bytes consumed _ _
    simp [extractC, emitOld, leavesSpec]
  · intro kind fname ferr inner ih _ hcr
    simp only [extractC, intoChild] at hcr ⊢
    simp only [leavesSpec]
    exact ih rfl hcr
  · intro fname ferr m _ _
    simp [extractC, emitOld, leavesSpec]
  · intro fname ferr m _ _
    simp [extractC, emitOld, leavesSpec]
  · intro fname ferr entries ih _ hcr
    simp only [extractC, Run.seq, res1] at hcr ⊢
    simp only [leavesSpec]
    simp at hcr ⊢
    exact ih hcr
  · intro kind fname ferr v hk _ _
    cases v <;> simp [extractC, hk, emitOld, leavesSpec, nestError]
  · intro kind fname ferr entries term ih _ hcr
    simp only [extractC] at hcr ⊢
    rw [seq_crashed, seq_crashed] at hcr
    simp [res1] at hcr
    obtain ⟨hc, ht⟩ := hcr
    cases term with
    | other m => simp [tarTerm, crashRun] at ht
    | eof =>
      rw [seq_sends _ _ (by simp [res1]), seq_sends _ _ hc]
      simp only [leavesSpec]
      simp [res1, tarTerm, emitNew, List.filter_append, List.map_append, ih hc]
  · intro kind fname ferr entries term ih _ hcr
    simp only [extractC] at hcr ⊢
    rw [seq_crashed, seq_crashed] at hcr
    simp [res1] at hcr
    obtain ⟨hc, _⟩ := hcr
    rw [seq_sends _ _ (by simp [res1]), seq_sends _ _ hc]
    simp only [leavesSpec]
    simp [res1, emitNew, List.filter_append, List.map_append, ih hc]
  · intro kind fname ferr m bytes consumed _ _
    simp [extractC, emitOld, leavesSpec]
  · intro kind fname ferr bytes hferr _
    subst hferr
    simp [extractC, emitOld, bufWrap, leavesSpec]
  · intro parent _
    simp [extractTarL, emptyRun, leavesTarL]
  · intro parent ename rest ih hcr
    simp only [extractTarL] at hcr ⊢
    simp only [leavesTarL]
    exact ih hcr
  · intro parent n c rest ih1 ih2 hcr
    simp only [extractTarL] at hcr ⊢
    rw [seq_crashed] at hcr
    simp only [intoEntry] at hcr
    simp at hcr
    obtain ⟨hc, hr⟩ := hcr
    rw [seq_sends _ _ (by simp [intoEntry, hc])]
    simp only [leavesTarL, intoEntry]
    simp [List.filter_append, List.map_append, ih1 rfl hc, ih2 hr]
  · intro parent _
    simp [extractRarL, emptyRun, leavesRarL]
  · intro parent ename rest ih hcr
    simp only [extractRarL] at hcr ⊢
    simp only [leavesRarL]
    exact ih hcr
  · intro parent n c rest ih1 ih2 hcr
    simp only [extractRarL] at hcr ⊢
    rw [seq_crashed] at hcr
    simp only [intoEntry] at hcr
    simp at hcr
    obtain ⟨hc, hr⟩ := hcr
    rw [seq_sends _ _ (by simp [intoEntry, hc])]
    simp only [leavesRarL, intoEntry]
    simp [List.filter_append, List.map_append, ih1 rfl hc, ih2 hr]
  · intro parent _
    simp [extractZipL, emptyRun, leavesZipL]
  · intro parent m rest ih hcr
    simp only [extractZipL] at hcr ⊢
    rw [seq_crashed] at hcr
    simp [emitNew] at hcr
    rw [seq_sends _ _ (by simp [emitNew])]
    simp only [leavesZipL]
    simp [emitNew, List.filter_append, List.map_append, ih hcr]
  · intro parent n c rest ih1 ih2 hcr
    simp only [extractZipL] at hcr ⊢
    rw [seq_crashed] at hcr
    simp only [intoEntry] at hcr
    simp at hcr
    obtain ⟨hc, hr⟩ := hcr
    rw [seq_sends _ _ (by simp [intoEntry, hc])]
    simp only [leavesZipL, intoEntry]
    simp [List.filter_append, List.map_append, ih1 rfl hc, ih2 hr]



/-! ### Claim theorems -/

/-- C1 (counterexample): for the input "x.tar.gz" holding a gzip stream with
no embedded header name whose decompressed tar contains "a.txt", the
directory "b/" and "c.bin", the non-error `Next` pulls are NOT named
"x.tar.gz:a.txt" and "x.tar.gz:c.bin" — the gzip branch inserts an extra
separator plus the (empty) embedded name. -/
theorem c1_counterexample :
    ((nextDrain ((runE (NewE ⟨.osFile,
        .gzipOk "" (.tarC [.reg "a.txt" (.raw [97]), .dir "b/",
          .reg "c.bin" (.raw [99])] .eof)⟩ "x.tar.gz")).sends)).map
        (fun g => g.filename))
      ≠ ["x.tar.gz:a.txt", "x.tar.gz:c.bin"] := by
  rw [nextDrain_eq_filter]
  decide

/-- C1 (amended): for the "x.tar.gz" gzip-of-tar scenario the non-error
`Next` pulls yield exactly two leaves, and their names are formed by
appending the separator, the gzip header's embedded name `g` (the empty
string when the header carries none), the separator again and the tar entry
name to the parent name — the embedded name is appended after "x.tar.gz",
never substituted for it. -/
theorem c1_gzip_tar_appended (g : String) (ba bc : List Nat) :
    ((nextDrain ((runE (NewE ⟨.osFile,
        .gzipOk g (.tarC [.reg "a.txt" (.raw ba), .dir "b/",
          .reg "c.bin" (.raw bc)] .eof)⟩ "x.tar.gz")).sends)).map
        (fun fs => fs.filename))
      = ["x.tar.gz" ++ ":" ++ g ++ ":" ++ "a.txt",
         "x.tar.gz" ++ ":" ++ g ++ ":" ++ "c.bin"] := by
  rw [nextDrain_eq_filter]
  rfl

/-- C2: each compression-only extension-stripping format (bzip2, xz, lz4)
resolves its filestream into exactly one recursive child over the decoded
stream; the child's name appends the last colon-separated segment with the
canonical extension stripped when that segment ends with the extension, and
is the parent name unchanged otherwise. -/
theorem c2_compression_stripping :
    (∀ (sep : String) (kind : RKind) (fname : String) (inner : Content),
        extract sep ⟨⟨kind, .bzip2 inner⟩, fname, none⟩ =
          intoChild ⟨⟨.other, inner⟩, stripExtName sep fname ".bz2", none⟩
            (extract sep ⟨⟨.other, inner⟩, stripExtName sep fname ".bz2", none⟩))
    ∧ (∀ (sep : String) (kind : RKind) (fname : String) (inner : Content),
        extract sep ⟨⟨kind, .xzOk inner⟩, fname, none⟩ =
          intoChild ⟨⟨.other, inner⟩, stripExtName sep fname ".xz", none⟩
            (extract sep ⟨⟨.other, inner⟩, stripExtName sep fname ".xz", none⟩))
    ∧ (∀ (sep : String) (kind : RKind) (fname : String) (inner : Content),
        extract sep ⟨⟨kind, .lz4 inner⟩, fname, none⟩ =
          intoChild ⟨⟨.other, inner⟩, stripExtName sep fname ".lz4", none⟩
            (extract sep ⟨⟨.other, inner⟩, stripExtName sep fname ".lz4", none⟩))
    ∧ (∀ (fname : String) (u : List Char),
        ((splitGo ":" fname).getLast!).data = u ++ (".bz2").data →
        stripExtName ":" fname ".bz2" = fname ++ ":" ++ String.mk u)
    ∧ (∀ fname : String, ¬ (".bz2").data <:+ ((splitGo ":" fname).getLast!).data →
        stripExtName ":" fname ".bz2" = fname)
    ∧ (∀ (fname : String) (u : List Char),
        ((splitGo ":" fname).getLast!).data = u ++ (".xz").data →
        stripExtName ":" fname ".xz" = fname ++ ":" ++ String.mk u)
    ∧ (∀ fname : String, ¬ (".xz").data <:+ ((splitGo ":" fname).getLast!).data →
        stripExtName ":" fname ".xz" = fname)
    ∧ (∀ (fname : String) (u : List Char),
        ((splitGo ":" fname).getLast!).data = u ++ (".lz4").data →
        stripExtName ":" fname ".lz4" = fname ++ ":" ++ String.mk u)
    ∧ (∀ fname : String, ¬ (".lz4").data <:+ ((splitGo ":" fname).getLast!).data →
        stripExtName ":" fname ".lz4" = fname) :=
  ⟨fun _ _ _ _ => rfl, fun _ _ _ _ => rfl, fun _ _ _ _ => rfl,
   stripExtName_strip_bz2, stripExtName_id_bz2,
   stripExtName_strip_xz, stripExtName_id_xz,
   stripExtName_strip_lz4, stripExtName_id_lz4⟩

/-- C2 (witness): the naming clauses of `c2_compression_stripping`
instantiated at concrete names. -/
theorem c2_witness :
    stripExtName ":" "d:x.bz2" ".bz2" = "d:x.bz2" ++ ":" ++ String.mk ['x']
    ∧ stripExtName ":" "a.txt" ".xz" = "a.txt" :=
  ⟨c2_compression_stripping.2.2.2.1 "d:x.bz2" ['x'] (by decide),
   c2_compression_stripping.2.2.2.2.2.2.1 "a.txt" (by decide)⟩

/-- C3 (code evaluation): rar emits its terminal iteration outcome as an
error-carrying filestream and tar does so for `io.EOF`, but a tar stream
whose iteration ends with any non-EOF error crashes the producer (nil
header dereference) and no terminal filestream is emitted. -/
theorem c3_tar_terminal_crash :
    ((extract ":" ⟨⟨.other, .tarC [.reg "a.txt" (.raw [97])]
        (.other "archive/tar: invalid tar header")⟩, "x.tar", none⟩).crashed = true
      ∧ (extract ":" ⟨⟨.other, .tarC [.reg "a.txt" (.raw [97])]
        (.other "archive/tar: invalid tar header")⟩, "x.tar", none⟩).sends.map
          (fun g => g.err) = [none])
    ∧ (extract ":" ⟨⟨.other, .tarC [.reg "a.txt" (.raw [97])] .eof⟩,
        "x.tar", none⟩).sends.map (fun g => g.err) = [none, some .eof]
    ∧ (extract ":" ⟨⟨.other, .rarOk [.reg "a.txt" (.raw [97])]
        (.other "rardecode: bad header crc")⟩, "x.rar", none⟩).sends.map
          (fun g => g.err) = [none, some (.other "rardecode: bad header crc")] :=
  ⟨⟨rfl, rfl⟩, rfl, rfl⟩

/-- C4: a zip-format filestream whose reader is not an `*os.File` is not
recursed into and does not crash: the walk emits exactly one filestream —
the input, buffered, with `NestError` attached and its content intact
(readable from the start as an opaque blob) — and constructs no children. -/
theorem c4_zip_nonseekable (sep fname : String) (kind : RKind) (zv : ZipView)
    (h : kind ≠ RKind.osFile) :
    extract sep ⟨⟨kind, .zipC zv⟩, fname, none⟩ =
      ⟨[⟨⟨.bufioR, .zipC zv⟩, fname, some nestError⟩], [], 0, 1, false⟩ := by
  show extractC sep kind fname none (.zipC zv) = _
  cases zv <;> simp [extractC, h, emitOld]

/-- C4 (witness): `c4_zip_nonseekable` at a concrete nested zip. -/
theorem c4_witness :
    extract ":" ⟨⟨.other, .zipC (.ok [])⟩, "n.zip", none⟩ =
      ⟨[⟨⟨.bufioR, .zipC (.ok [])⟩, "n.zip", some nestError⟩], [], 0, 1, false⟩ :=
  c4_zip_nonseekable ":" "n.zip" .other (.ok []) (by decide)

/-- C5 (counterexample): a six-byte stream whose gzip signature matches but
whose header is truncated makes `gzip.NewReader` consume all six bytes
before failing; the single emitted filestream carries the construction
error and the original name, but its buffered reader is fully drained —
the original bytes are no longer readable from its start. -/
theorem c5_counterexample :
    (extract ":" ⟨⟨.other, .gzipErr "unexpected EOF" [31, 139, 8, 0, 255, 255] 6⟩,
        "x.gz", none⟩).sends =
      [⟨⟨.bufioR, .raw []⟩, "x.gz", some (.other "unexpected EOF")⟩]
    ∧ Content.raw ([] : List Nat) ≠ Content.raw [31, 139, 8, 0, 255, 255] :=
  ⟨rfl, by simp⟩

/-- C5 (amended): when decoder construction fails (gzip, xz, rar, and zip
over an `*os.File`), the walk emits exactly one filestream — the original
input, under its original name, with its buffered reader and the
construction error attached — never dropped, never blocking without an
emission.  For zip (probed via `ReadAt`) the buffered stream is still
readable from its start; for gzip, xz and rar the failed constructor has
already consumed its header/signature bytes from the buffered reader, so
the emitted stream resumes after the consumed prefix, not at the start. -/
theorem c5_decoder_failure_emission (sep fname m : String) (kind : RKind)
    (bytes : List Nat) (consumed : Nat) :
    extract sep ⟨⟨kind, .gzipErr m bytes consumed⟩, fname, none⟩ =
      ⟨[⟨⟨.bufioR, .raw (bytes.drop consumed)⟩, fname, some (.other m)⟩],
        [], 0, 1, false⟩
    ∧ extract sep ⟨⟨kind, .xzErr m bytes consumed⟩, fname, none⟩ =
      ⟨[⟨⟨.bufioR, .raw (bytes.drop consumed)⟩, fname, some (.other m)⟩],
        [], 0, 1, false⟩
    ∧ extract sep ⟨⟨kind, .rarErr m bytes consumed⟩, fname, none⟩ =
      ⟨[⟨⟨.bufioR, .raw (bytes.drop consumed)⟩, fname, some (.other m)⟩],
        [], 0, 1, false⟩
    ∧ extract sep ⟨⟨.osFile, .zipC (.newErr m)⟩, fname, none⟩ =
      ⟨[⟨⟨.bufioR, .zipC (.newErr m)⟩, fname, some (.other m)⟩], [], 0, 1, false⟩ :=
  ⟨rfl, rfl, rfl, rfl⟩

/-- C6: `Next` never returns an error-carrying filestream — draining the
emitted sequence through `Next` yields exactly the error-free filestreams in
order, any single pull returns an error-free filestream or exhaustion — and
`NextWithError` returns every emitted filestream verbatim. -/
theorem c6_next_semantics (l : List Fstream) :
    nextDrain l = l.filter (fun fs => fs.err.isNone)
    ∧ Option.all (fun p => p.1.err.isNone) (nextPull l) = true
    ∧ nextWithErrorPull l = Option.map (fun fs => (fs, l.tail)) l.head? := by
  refine ⟨nextDrain_eq_filter l, ?_, ?_⟩
  · induction l with
    | nil => rfl
    | cons a t ih =>
      by_cases ha : a.err.isNone
      · simp [nextPull, ha]
      · simp at ha
        simp [nextPull, ha, ih]
  · cases l <;> rfl

/-- C7: an input whose sniffed format is unrecognized is emitted as exactly
one leaf: the same filestream, buffered, with the same name, identical
bytes (the 512-byte peek consumes nothing) and no error. -/
theorem c7_unrecognized_leaf (sep fname : String) (kind : RKind) (bytes : List Nat) :
    extract sep ⟨⟨kind, .raw bytes⟩, fname, none⟩ =
      ⟨[⟨⟨.bufioR, .raw bytes⟩, fname, none⟩], [], 0, 1, false⟩ :=
  rfl

/-- C8: on any complete (crash-free) walk, every constructed filestream is
resolved exactly once: the constructions performed during the walk plus one
for the initial filestream equal the resolutions (recursion targets plus
channel emissions) performed. -/
theorem c8_resolution_balance (sep : String) (f : Fstream)
    (h : (extract sep f).crashed = false) :
    (extract sep f).cons + 1 = (extract sep f).res :=
  (extract_balance_all sep f.r.kind f.filename f.err f.r.content).symm

/-- C8 (witness): `c8_resolution_balance` on a concrete gzip-of-tar walk. -/
theorem c8_witness :
    (extract ":" ⟨⟨.osFile, .gzipOk "" (.tarC [.reg "a.txt" (.raw [97]),
        .dir "d/", .reg "b.bin" (.raw [98])] .eof)⟩, "x.tar.gz", none⟩).cons + 1 =
      (extract ":" ⟨⟨.osFile, .gzipOk "" (.tarC [.reg "a.txt" (.raw [97]),
        .dir "d/", .reg "b.bin" (.raw [98])] .eof)⟩, "x.tar.gz", none⟩).res :=
  c8_resolution_balance ":" ⟨⟨.osFile, .gzipOk "" (.tarC [.reg "a.txt" (.raw [97]),
    .dir "d/", .reg "b.bin" (.raw [98])] .eof)⟩, "x.tar.gz", none⟩ rfl

/-- C9: on a crash-free walk of an error-free input, the error-free leaves
arrive on the channel in depth-first pre-order of the nesting structure,
with the entries of each multi-entry container in native order:
the filtered emission names equal the pre-order flatten `leavesSpec`. -/
theorem c9_preorder_delivery (sep : String) (f : Fstream)
    (h1 : f.err = none) (h2 : (extract sep f).crashed = false) :
    ((extract sep f).sends.filter (fun g => g.err.isNone)).map (fun g => g.filename)
      = leavesSpec sep f.r.kind f.filename f.r.content :=
  extract_preorder_all sep f.r.kind f.filename f.err f.r.content h1 h2

/-- C9 (witness): `c9_preorder_delivery` on a concrete bzip2-inside-tar-
inside-gzip walk. -/
theorem c9_witness :
    ((extract ":" ⟨⟨.osFile, .gzipOk "n.tar" (.tarC [.reg "a" (.raw [1]),
        .dir "d/", .reg "b.bz2" (.bzip2 (.raw [2]))] .eof)⟩, "x.gz", none⟩).sends.filter
        (fun g => g.err.isNone)).map (fun g => g.filename)
      = leavesSpec ":" RKind.osFile "x.gz"
          (.gzipOk "n.tar" (.tarC [.reg "a" (.raw [1]),
            .dir "d/", .reg "b.bz2" (.bzip2 (.raw [2]))] .eof)) :=
  c9_preorder_delivery ":" ⟨⟨.osFile, .gzipOk "n.tar" (.tarC [.reg "a" (.raw [1]),
    .dir "d/", .reg "b.bz2" (.bzip2 (.raw [2]))] .eof)⟩, "x.gz", none⟩ rfl rfl

/-- C10: the zip random-access probe is the `*os.File` type test, and every
filestream the walk recurses into carries a decoder or entry reader — so a
zip nested at any depth is never enumerated and always yields the single
`NestError` emission, while enumeration happens exactly in the `*os.File`
branch reachable only by the session's top-level input. -/
theorem c10_nested_zip_nesterror (sep : String) :
    (∀ f g : Fstream, g ∈ (extract sep f).calls → g.r.kind = RKind.other)
    ∧ (∀ (g : Fstream) (zv : ZipView), g.r.kind = RKind.other →
        g.r.content = .zipC zv →
        extract sep g =
          ⟨[⟨⟨.bufioR, .zipC zv⟩, g.filename, some nestError⟩], [], 0, 1, false⟩)
    ∧ (∀ (fname : String) (ferr : Option GoErr) (entries : List ZEntry),
        extractC sep RKind.osFile fname ferr (.zipC (.ok entries)) =
          Run.seq res1 (extractZipL sep fname entries)) := by
  refine ⟨?_, ?_, ?_⟩
  · intro f g hg
    exact extract_calls_other sep f.r.kind f.filename f.err f.r.content g hg
  · intro g zv hk hc
    show extractC sep g.r.kind g.filename g.err g.r.content = _
    rw [hc, hk]
    cases zv <;> simp [extractC, emitOld]
  · intro fname ferr entries
    rfl

/-- C10 (witness): a zip nested directly inside a gzip stream is recursed
into with a decoder reader and yields the `NestError` emission. -/
theorem c10_witness :
    (⟨⟨.other, .zipC (.ok [])⟩, "a.gz" ++ ":" ++ "", none⟩ : Fstream).r.kind
        = RKind.other
    ∧ extract ":" ⟨⟨.other, .zipC (.ok [])⟩, "a.gz" ++ ":" ++ "", none⟩ =
      ⟨[⟨⟨.bufioR, .zipC (.ok [])⟩, "a.gz" ++ ":" ++ "", some nestError⟩],
        [], 0, 1, false⟩ :=
  ⟨(c10_nested_zip_nesterror ":").1
      ⟨⟨.osFile, .gzipOk "" (.zipC (.ok []))⟩, "a.gz", none⟩
      ⟨⟨.other, .zipC (.ok [])⟩, "a.gz" ++ ":" ++ "", none⟩
      (List.Mem.head _),
   (c10_nested_zip_nesterror ":").2.1
      ⟨⟨.other, .zipC (.ok [])⟩, "a.gz" ++ ":" ++ "", none⟩ (.ok []) rfl rfl⟩

end Extractor
